import Mathlib

/-
Verification of the multiplexed blobstore core of this repository
(src/eden/mononoke/blobstore/multiplexedblob/src/base.rs) and of the
blobstore sync queue (src/eden/mononoke/blobstore_sync_queue/src/lib.rs),
as a shallow embedding in Lean.

Modelling choices shared by all definitions below:
- A backend id (`BlobstoreId`) is a `Nat`; a multiplex id is an `Int`.
- The opaque `anyhow::Error` is modelled by its message, a `String`.
- Blob bytes are `List Nat`.
- A fan-out of per-backend futures consumed through a `FuturesUnordered`
  stream is modelled by the list of per-backend results in arrival order:
  one entry per configured backend, in an arbitrary order.  Early return
  in a `while let` loop over the stream is modelled by a recursion that
  stops consuming the list.
-/

namespace EdenMultiplex

/-- Bytes of a blob (`BlobstoreBytes` / raw bytes view). -/
abbrev Bytes := List Nat

/-- `BlobstoreGetData`: blob bytes plus optional `ctime` metadata. -/
structure BlobstoreGetData where
  bytes : Bytes
  ctime : Option Int
deriving DecidableEq

/-- `BlobstoreGetData::as_bytes`: the raw bytes view. -/
def BlobstoreGetData.as_bytes (d : BlobstoreGetData) : Bytes := d.bytes

/-- `BlobstoreGetData::remove_ctime`: drop the `ctime` metadata. -/
def BlobstoreGetData.remove_ctime (d : BlobstoreGetData) : BlobstoreGetData :=
  { d with ctime := none }

/-- `ErrorKind` from base.rs.  The `HashMap<BlobstoreId, Error>` payloads are
modelled as association lists in insertion order; the `HashSet<BlobstoreId>`
payloads as `Finset Nat`. -/
inductive ErrorKind where
  | someFailedOthersNone (errors : List (Nat × String))
  | allFailed (errors : List (Nat × String))
  | valueMismatch (answered : Finset Nat) (missing : Finset Nat)
  | someMissingItem (missing : Finset Nat) (value : Option BlobstoreGetData)
deriving DecidableEq

/-- Result of one backend `get`: `Result<Option<BlobstoreGetData>, Error>`. -/
abbrev GetRes := Except String (Option BlobstoreGetData)

/-- The error recorded for one arrived result, if it is an `Err`
(`errors.insert(blobstore_id, error)`). -/
def errOf {α : Type} (p : Nat × Except String α) : Option (Nat × String) :=
  match p.2 with
  | .error e => some (p.1, e)
  | .ok _ => none

/-- All errors of an arrival vector, in arrival order: the contents of the
`errors` map once the stream has drained. -/
def errsOf {α : Type} (results : List (Nat × Except String α)) : List (Nat × String) :=
  results.filterMap errOf

/-- The first `Ok(Some(..))` in arrival order: the blob that wins the race. -/
def firstSomeRes (results : List (Nat × GetRes)) : Option BlobstoreGetData :=
  results.findSome? fun p =>
    match p.2 with
    | .ok (some d) => some d
    | _ => none

/-- The `while let Some(result) = requests.next().await` loop of
`blobstore_get`, plus its drain classification.  `count` is
`blobstores_count`, `errors` the accumulated error map. -/
def getLoop (count : Nat) (errors : List (Nat × String)) :
    List (Nat × GetRes) → Except ErrorKind (Option BlobstoreGetData)
  | [] =>
    if errors = [] then .ok none
    else if errors.length = count then .error (.allFailed errors)
    else .error (.someFailedOthersNone errors)
  | p :: rest =>
    match p.2 with
    | .ok (some v) => .ok (some v.remove_ctime)
    | .error e => getLoop count (errors ++ [(p.1, e)]) rest
    | .ok none => getLoop count errors rest

/-- `blobstore_get`, over the arrival-ordered vector of per-backend results
(one per configured backend, so `blobstores_count` is its length). -/
def blobstore_get (results : List (Nat × GetRes)) :
    Except ErrorKind (Option BlobstoreGetData) :=
  getLoop results.length [] results

theorem errsOf_cons {α : Type} (i : Nat) (r : Except String α)
    (rest : List (Nat × Except String α)) :
    errsOf ((i, r) :: rest) =
      (match r with | .error e => [(i, e)] | .ok _ => []) ++ errsOf rest := by
  cases r <;> simp [errsOf, errOf]

theorem firstSomeRes_cons (i : Nat) (r : GetRes) (rest : List (Nat × GetRes)) :
    firstSomeRes ((i, r) :: rest) =
      match r with
      | .ok (some d) => some d
      | _ => firstSomeRes rest := by
  rcases r with e | v
  · simp [firstSomeRes]
  · rcases v with _ | d <;> simp [firstSomeRes]

/-- Characterisation of the `blobstore_get` loop: the first positive answer
wins immediately; otherwise the accumulated errors are classified. -/
theorem getLoop_spec (res : List (Nat × GetRes)) :
    ∀ (count : Nat) (errors : List (Nat × String)),
      getLoop count errors res =
        match firstSomeRes res with
        | some d => .ok (some d.remove_ctime)
        | none =>
          if errors ++ errsOf res = [] then .ok none
          else if (errors ++ errsOf res).length = count then
            .error (.allFailed (errors ++ errsOf res))
          else .error (.someFailedOthersNone (errors ++ errsOf res)) := by
  induction res with
  | nil =>
    intro count errors
    simp [getLoop, firstSomeRes, errsOf]
  | cons p rest ih =>
    intro count errors
    rcases p with ⟨i, r⟩
    rw [firstSomeRes_cons, errsOf_cons]
    match r with
    | .ok (some v) =>
      simp [getLoop]
    | .ok none =>
      simp only [getLoop]
      rw [ih]
      simp only [List.nil_append]
    | .error e =>
      simp only [getLoop]
      rw [ih]
      cases hf : firstSomeRes rest with
      | some d => simp [hf]
      | none =>
        simp only [hf, List.append_assoc, List.singleton_append, List.nil_append,
          List.cons_append]

theorem blobstore_get_spec (results : List (Nat × GetRes)) :
    blobstore_get results =
      match firstSomeRes results with
      | some d => .ok (some d.remove_ctime)
      | none =>
        if errsOf results = [] then .ok none
        else if (errsOf results).length = results.length then
          .error (.allFailed (errsOf results))
        else .error (.someFailedOthersNone (errsOf results)) := by
  rw [blobstore_get, getLoop_spec]
  simp

/-- Result of one backend `is_present`: `Result<bool, Error>`. -/
abbrev PresRes := Except String Bool

/-- The `while let` loop of `MultiplexedBlobstoreBase::is_present`, plus its
drain classification. -/
def presentLoop (count : Nat) (errors : List (Nat × String)) :
    List (Nat × PresRes) → Except ErrorKind Bool
  | [] =>
    if errors = [] then .ok false
    else if errors.length = count then .error (.allFailed errors)
    else .error (.someFailedOthersNone errors)
  | p :: rest =>
    match p.2 with
    | .ok true => .ok true
    | .error e => presentLoop count (errors ++ [(p.1, e)]) rest
    | .ok false => presentLoop count errors rest

/-- `MultiplexedBlobstoreBase::is_present`, over the arrival-ordered vector of
per-backend results. -/
def is_present (results : List (Nat × PresRes)) : Except ErrorKind Bool :=
  presentLoop results.length [] results

/-- Does some arrived result report presence? -/
def hasTrue (results : List (Nat × PresRes)) : Bool :=
  results.any fun p =>
    match p.2 with
    | .ok true => true
    | _ => false

theorem hasTrue_cons (i : Nat) (r : PresRes) (rest : List (Nat × PresRes)) :
    hasTrue ((i, r) :: rest) =
      match r with
      | .ok true => true
      | _ => hasTrue rest := by
  rcases r with e | b
  · simp [hasTrue]
  · cases b <;> simp [hasTrue]

theorem presentLoop_spec (res : List (Nat × PresRes)) :
    ∀ (count : Nat) (errors : List (Nat × String)),
      presentLoop count errors res =
        if hasTrue res then .ok true
        else
          if errors ++ errsOf res = [] then .ok false
          else if (errors ++ errsOf res).length = count then
            .error (.allFailed (errors ++ errsOf res))
          else .error (.someFailedOthersNone (errors ++ errsOf res)) := by
  induction res with
  | nil =>
    intro count errors
    simp [presentLoop, hasTrue, errsOf]
  | cons p rest ih =>
    intro count errors
    rcases p with ⟨i, r⟩
    rw [hasTrue_cons, errsOf_cons]
    match r with
    | .ok true => simp [presentLoop]
    | .ok false =>
      simp only [presentLoop]
      rw [ih]
      simp only [List.nil_append]
    | .error e =>
      simp only [presentLoop]
      rw [ih]
      cases hb : hasTrue rest with
      | true => simp [hb]
      | false =>
        simp only [hb, List.append_assoc, List.singleton_append, List.nil_append,
          List.cons_append, if_false, Bool.false_eq_true]

theorem is_present_spec (results : List (Nat × PresRes)) :
    is_present results =
      if hasTrue results then .ok true
      else
        if errsOf results = [] then .ok false
        else if (errsOf results).length = results.length then
          .error (.allFailed (errsOf results))
        else .error (.someFailedOthersNone (errsOf results)) := by
  rw [is_present, presentLoop_spec]
  simp

/- Facts about the accumulated error map. -/

theorem errsOf_length_eq {α : Type} (res : List (Nat × Except String α))
    (h : ∀ p ∈ res, ∃ e, p.2 = .error e) : (errsOf res).length = res.length := by
  induction res with
  | nil => simp [errsOf]
  | cons p rest ih =>
    obtain ⟨e, he⟩ := h p (by simp)
    rcases p with ⟨i, r⟩
    simp only at he
    subst he
    rw [errsOf_cons]
    simp only [List.singleton_append, List.length_cons]
    rw [ih fun q hq => h q (by simp [hq])]

theorem errsOf_eq_nil {α : Type} (res : List (Nat × Except String α))
    (h : ∀ p ∈ res, ∃ a, p.2 = .ok a) : errsOf res = [] := by
  induction res with
  | nil => simp [errsOf]
  | cons p rest ih =>
    obtain ⟨a, ha⟩ := h p (by simp)
    rcases p with ⟨i, r⟩
    simp only at ha
    subst ha
    rw [errsOf_cons]
    simpa using ih fun q hq => h q (by simp [hq])

theorem errsOf_length_le {α : Type} (res : List (Nat × Except String α)) :
    (errsOf res).length ≤ res.length :=
  List.length_filterMap_le errOf res

theorem errsOf_length_lt {α : Type} (res : List (Nat × Except String α)) :
    ∀ (p : Nat × Except String α), p ∈ res → (∃ a, p.2 = .ok a) →
      (errsOf res).length < res.length := by
  induction res with
  | nil =>
    intro p hp
    simp at hp
  | cons q rest ih =>
    intro p hp ha
    rcases q with ⟨i, r⟩
    rw [errsOf_cons]
    have hle : (errsOf rest).length ≤ rest.length := errsOf_length_le rest
    rcases List.mem_cons.1 hp with hq | hq
    · obtain ⟨a, har⟩ := ha
      rw [hq] at har
      simp only at har
      rw [har]
      simp only [List.nil_append, List.length_cons]
      omega
    · have hlt := ih p hq ha
      clear hp
      have hle1 :
          ((match r with
            | Except.error e => [(i, e)]
            | Except.ok _ => []) : List (Nat × String)).length ≤ 1 := by
        cases r <;> simp
      simp only [List.length_append, List.length_cons]
      omega

theorem mem_errsOf {α : Type} (res : List (Nat × Except String α))
    (i : Nat) (e : String) (h : (i, Except.error e) ∈ res) : (i, e) ∈ errsOf res := by
  refine List.mem_filterMap.2 ⟨(i, Except.error e), h, ?_⟩
  simp [errOf]

/-- A `findSome?` hit for the winner matcher means that result is a hit. -/
theorem winner_of_matcher {p : Nat × GetRes} {d : BlobstoreGetData}
    (h : (match p.2 with | .ok (some v) => some v | _ => none) = some d) :
    p.2 = .ok (some d) := by
  rcases p with ⟨i, r⟩
  rcases r with e | v
  · simp at h
  · rcases v with _ | w
    · simp at h
    · simp only at h
      simp [Option.some_inj.1 h]

theorem firstSomeRes_eq_none_iff (results : List (Nat × GetRes)) :
    firstSomeRes results = none ↔ ∀ p ∈ results, ∀ d, p.2 ≠ .ok (some d) := by
  rw [firstSomeRes, List.findSome?_eq_none_iff]
  constructor
  · intro h p hp d hd
    have := h p hp
    rw [hd] at this
    simp at this
  · intro h p hp
    rcases hr : p.2 with e | v
    · simp
    · rcases v with _ | w
      · simp
      · exact absurd hr (h p hp w)

theorem blobstore_get_of_firstSome (results : List (Nat × GetRes))
    (d : BlobstoreGetData) (h : firstSomeRes results = some d) :
    blobstore_get results = .ok (some d.remove_ctime) := by
  rw [blobstore_get_spec, h]

theorem blobstore_get_of_noWinner (results : List (Nat × GetRes))
    (h : firstSomeRes results = none) :
    blobstore_get results =
      if errsOf results = [] then .ok none
      else if (errsOf results).length = results.length then
        .error (.allFailed (errsOf results))
      else .error (.someFailedOthersNone (errsOf results)) := by
  rw [blobstore_get_spec, h]

/-- Claim C4: `get` returns `Ok(Some v)` iff at least one backend returned
`Ok(Some ..)`; the returned value is the first positive answer in arrival
order with its `ctime` metadata removed. -/
theorem get_returns_first_positive_stripped (results : List (Nat × GetRes)) :
    ((∃ v, blobstore_get results = .ok (some v)) ↔
      ∃ p ∈ results, ∃ d, p.2 = .ok (some d))
    ∧ (∀ d, firstSomeRes results = some d →
        blobstore_get results = .ok (some d.remove_ctime))
    ∧ (∀ v, blobstore_get results = .ok (some v) → v.ctime = none) := by
  cases hf : firstSomeRes results with
  | some d =>
    have hg := blobstore_get_of_firstSome results d hf
    obtain ⟨p, hp, hm⟩ := List.exists_of_findSome?_eq_some hf
    refine ⟨⟨fun _ => ⟨p, hp, d, winner_of_matcher hm⟩,
      fun _ => ⟨d.remove_ctime, hg⟩⟩, ?_, ?_⟩
    · intro d2 hd2
      obtain rfl : d = d2 := Option.some_inj.1 hd2
      exact hg
    · intro v hv
      rw [hg] at hv
      have hvd : some d.remove_ctime = some v := Except.ok.inj hv
      rw [← Option.some_inj.1 hvd]
      simp [BlobstoreGetData.remove_ctime]
  | none =>
    have hg := blobstore_get_of_noWinner results hf
    have hno := (firstSomeRes_eq_none_iff results).1 hf
    refine ⟨⟨?_, ?_⟩, ?_, ?_⟩
    · intro ⟨v, hv⟩
      exfalso
      rw [hg] at hv
      by_cases h1 : errsOf results = []
      · rw [if_pos h1] at hv
        simp at hv
      · rw [if_neg h1] at hv
        by_cases h2 : (errsOf results).length = results.length
        · rw [if_pos h2] at hv
          simp at hv
        · rw [if_neg h2] at hv
          simp at hv
    · intro ⟨p, hp, d, hd⟩
      exact absurd hd (hno p hp d)
    · intro d hd
      exact Option.noConfusion hd
    · intro v hv
      exfalso
      rw [hg] at hv
      by_cases h1 : errsOf results = []
      · rw [if_pos h1] at hv
        simp at hv
      · rw [if_neg h1] at hv
        by_cases h2 : (errsOf results).length = results.length
        · rw [if_pos h2] at hv
          simp at hv
        · rw [if_neg h2] at hv
          simp at hv

/-- Claim C4 witness. -/
theorem get_returns_first_positive_stripped_witness :
    blobstore_get [(0, .error "e"), (1, .ok (some ⟨[1, 2], some 3⟩)),
        (2, .ok (some ⟨[9], some 4⟩))] = .ok (some ⟨[1, 2], none⟩) := by
  have h := (get_returns_first_positive_stripped
    [(0, .error "e"), (1, .ok (some ⟨[1, 2], some 3⟩)),
     (2, .ok (some ⟨[9], some 4⟩))]).2.1 ⟨[1, 2], some 3⟩ (by decide)
  simpa [BlobstoreGetData.remove_ctime] using h

/-- Claim C3: if the result stream drains with no positive answer, `get`
classifies the accumulated errors: all errored gives `AllFailed` with the
backend-to-error map, a mix of errors and `None`s gives
`SomeFailedOthersNone` with that map, and all `Ok(None)` gives `Ok(None)`. -/
theorem get_drain_classification (results : List (Nat × GetRes))
    (hnw : ∀ p ∈ results, ∀ d, p.2 ≠ .ok (some d)) :
    ((results ≠ [] ∧ ∀ p ∈ results, ∃ e, p.2 = .error e) →
        blobstore_get results = .error (.allFailed (errsOf results)))
    ∧ (((∃ p ∈ results, ∃ e, p.2 = .error e) ∧ (∃ p ∈ results, p.2 = .ok none)) →
        blobstore_get results = .error (.someFailedOthersNone (errsOf results)))
    ∧ ((∀ p ∈ results, p.2 = .ok none) → blobstore_get results = .ok none) := by
  rw [blobstore_get_of_noWinner results ((firstSomeRes_eq_none_iff results).2 hnw)]
  refine ⟨?_, ?_, ?_⟩
  · intro ⟨hne, hall⟩
    have hlen := errsOf_length_eq results hall
    have hnenil : errsOf results ≠ [] := by
      rcases results with _ | ⟨p, rest⟩
      · exact absurd rfl hne
      · intro hnil
        rw [hnil] at hlen
        simp at hlen
    rw [if_neg hnenil, if_pos hlen]
  · intro ⟨⟨p, hp, e, he⟩, ⟨q, hq, hqn⟩⟩
    have hmem : (p.1, e) ∈ errsOf results := by
      have : (p.1, Except.error e) ∈ results := by
        rcases p with ⟨i, r⟩
        simp only at he
        rwa [he] at hp
      exact mem_errsOf results p.1 e this
    have hnenil : errsOf results ≠ [] := by
      intro hnil
      rw [hnil] at hmem
      simp at hmem
    have hlt := errsOf_length_lt results q hq ⟨none, hqn⟩
    rw [if_neg hnenil, if_neg (by omega)]
  · intro hall
    rw [errsOf_eq_nil results fun p hp => ⟨none, hall p hp⟩]
    simp

/-- Claim C3 witness. -/
theorem get_drain_classification_witness :
    blobstore_get [(0, .error "ea"), (1, .error "eb")] =
      .error (.allFailed [(0, "ea"), (1, "eb")])
    ∧ blobstore_get [(0, .error "ea"), (1, .ok none)] =
      .error (.someFailedOthersNone [(0, "ea")])
    ∧ blobstore_get [(0, .ok none), (1, .ok none)] = .ok none := by
  refine ⟨?_, ?_, ?_⟩
  · have h := (get_drain_classification [(0, .error "ea"), (1, .error "eb")]
      (by intro p hp d; fin_cases hp <;> simp)).1
      ⟨by simp, by intro p hp; fin_cases hp <;> simp⟩
    simpa [errsOf, errOf] using h
  · have h := (get_drain_classification [(0, .error "ea"), (1, .ok none)]
      (by intro p hp d; fin_cases hp <;> simp)).2.1
      ⟨⟨(0, .error "ea"), by simp, "ea", rfl⟩, ⟨(1, .ok none), by simp, rfl⟩⟩
    simpa [errsOf, errOf] using h
  · have h := (get_drain_classification [(0, .ok none), (1, .ok none)]
      (by intro p hp d; fin_cases hp <;> simp)).2.2
      (by intro p hp; fin_cases hp <;> simp)
    simpa using h

/-- Claim C6: `is_present` returns `Ok(true)` iff some backend reported
presence; with no positive answer it returns `Ok(false)` when nothing
errored, `AllFailed` when everything errored and `SomeFailedOthersNone`
when only some errored. -/
theorem is_present_classification (results : List (Nat × PresRes)) :
    ((∃ p ∈ results, p.2 = .ok true) ↔ is_present results = .ok true)
    ∧ ((∀ p ∈ results, p.2 = .ok false) → is_present results = .ok false)
    ∧ ((results ≠ [] ∧ ∀ p ∈ results, ∃ e, p.2 = .error e) →
        is_present results = .error (.allFailed (errsOf results)))
    ∧ (((∀ p ∈ results, p.2 ≠ .ok true) ∧ (∃ p ∈ results, ∃ e, p.2 = .error e)
          ∧ (∃ p ∈ results, p.2 = .ok false)) →
        is_present results = .error (.someFailedOthersNone (errsOf results))) := by
  rw [is_present_spec]
  have htrue : hasTrue results = true ↔ ∃ p ∈ results, p.2 = .ok true := by
    rw [hasTrue, List.any_eq_true]
    constructor
    · intro ⟨p, hp, hm⟩
      refine ⟨p, hp, ?_⟩
      rcases hr : p.2 with e | b
      · rw [hr] at hm; simp at hm
      · cases b
        · rw [hr] at hm; simp at hm
        · rfl
    · intro ⟨p, hp, hm⟩
      exact ⟨p, hp, by rw [hm]⟩
  refine ⟨?_, ?_, ?_, ?_⟩
  · constructor
    · intro h
      rw [if_pos (htrue.2 h)]
    · intro h
      by_cases ht : hasTrue results = true
      · exact htrue.1 ht
      · rw [if_neg ht] at h
        exfalso
        by_cases h1 : errsOf results = []
        · rw [if_pos h1] at h
          simp at h
        · rw [if_neg h1] at h
          by_cases h2 : (errsOf results).length = results.length
          · rw [if_pos h2] at h
            simp at h
          · rw [if_neg h2] at h
            simp at h
  · intro hall
    have hnt : ¬ hasTrue results = true := by
      intro ht
      obtain ⟨p, hp, hm⟩ := htrue.1 ht
      have := hall p hp
      rw [this] at hm
      simp at hm
    rw [if_neg hnt, if_pos (errsOf_eq_nil results fun p hp => ⟨false, hall p hp⟩)]
  · intro ⟨hne, hall⟩
    have hnt : ¬ hasTrue results = true := by
      intro ht
      obtain ⟨p, hp, hm⟩ := htrue.1 ht
      obtain ⟨e, he⟩ := hall p hp
      rw [he] at hm
      simp at hm
    have hlen := errsOf_length_eq results hall
    have hnenil : errsOf results ≠ [] := by
      rcases results with _ | ⟨p, rest⟩
      · exact absurd rfl hne
      · intro hnil
        rw [hnil] at hlen
        simp at hlen
    rw [if_neg hnt, if_neg hnenil, if_pos hlen]
  · intro ⟨hnone, ⟨p, hp, e, he⟩, ⟨q, hq, hqf⟩⟩
    have hnt : ¬ hasTrue results = true := by
      intro ht
      obtain ⟨s, hs, hm⟩ := htrue.1 ht
      exact hnone s hs hm
    have hmem : (p.1, e) ∈ errsOf results := by
      have : (p.1, Except.error e) ∈ results := by
        rcases p with ⟨i, r⟩
        simp only at he
        rwa [he] at hp
      exact mem_errsOf results p.1 e this
    have hnenil : errsOf results ≠ [] := by
      intro hnil
      rw [hnil] at hmem
      simp at hmem
    have hlt := errsOf_length_lt results q hq ⟨false, hqf⟩
    rw [if_neg hnt, if_neg hnenil, if_neg (by omega)]

/-- Claim C6 witness. -/
theorem is_present_classification_witness :
    is_present [(0, .error "ea"), (1, .ok true)] = .ok true
    ∧ is_present [(0, .ok false), (1, .ok false)] = .ok false
    ∧ is_present [(0, .error "ea"), (1, .error "eb")] =
        .error (.allFailed [(0, "ea"), (1, "eb")])
    ∧ is_present [(0, .error "ea"), (1, .ok false)] =
        .error (.someFailedOthersNone [(0, "ea")]) := by
  refine ⟨?_, ?_, ?_, ?_⟩
  · exact (is_present_classification [(0, .error "ea"), (1, .ok true)]).1.1
      ⟨(1, .ok true), by simp, rfl⟩
  · exact (is_present_classification [(0, .ok false), (1, .ok false)]).2.1
      (by intro p hp; fin_cases hp <;> simp)
  · have h := (is_present_classification [(0, .error "ea"), (1, .error "eb")]).2.2.1
      ⟨by simp, by intro p hp; fin_cases hp <;> simp⟩
    simpa [errsOf, errOf] using h
  · have h := (is_present_classification [(0, .error "ea"), (1, .ok false)]).2.2.2
      ⟨by intro p hp; fin_cases hp <;> simp,
       ⟨(0, .error "ea"), by simp, "ea", rfl⟩, ⟨(1, .ok false), by simp, rfl⟩⟩
    simpa [errsOf, errOf] using h

/-
`MultiplexedBlobstoreBase::put`.

The reducer loop `while let Some(result) = select_next(&mut puts, &mut
handlers)` consumes completion events of the two pools in an arbitrary
interleaving.  A schedule is modelled as a list of events; `select_next`
returning an event of a pool requires that the corresponding task is still
pending in that pool.  An event list that asks for a task that is not
pending, or that ends while a pool is non-empty, is not a schedule the
runtime can produce and yields `invalid`.
-/

/-- One completion event delivered by `select_next`: a backend put finishing
(`Ok(handler)` or `Err`), or a handler invocation finishing. -/
inductive PEvent where
  | putOk (id : Nat)
  | putErr (id : Nat) (e : String)
  | hOk (id : Nat)
  | hErr (id : Nat) (e : String)
deriving DecidableEq

/-- The reducer state of `put`: the two pools, `last_err`, and (for the
specification only) which backend puts and which handler invocations have
completed successfully so far. -/
structure PutState where
  puts : List Nat
  handlers : List Nat
  lastErr : Option String
  okPuts : List Nat
  okHandlers : List Nat
deriving DecidableEq

/-- How `put`'s reducer loop ends: `ok st` is `return Ok(())` with `st` the
state at return (whatever is left in `st.puts` and `st.handlers` is spawned
off detached); `err e` is `Err(last_err.unwrap())`; `panic` is
`last_err.unwrap()` evaluated on `None`. -/
inductive PutOutcome where
  | ok (st : PutState)
  | err (e : String)
  | panic
  | invalid
deriving DecidableEq

/-- The loop exit of `put`: `Err(last_err.unwrap())`, a panic when
`last_err` is `None`. -/
def putFinish (lastErr : Option String) : PutOutcome :=
  match lastErr with
  | some e => .err e
  | none => .panic

/-- The reducer loop of `MultiplexedBlobstoreBase::put` over a schedule of
completion events.  `select_next` returns `None` — and the loop exits —
exactly when both pools are empty. -/
def putLoop (st : PutState) : List PEvent → PutOutcome
  | [] =>
    if st.puts = [] ∧ st.handlers = [] then putFinish st.lastErr else .invalid
  | ev :: rest =>
    if st.puts = [] ∧ st.handlers = [] then putFinish st.lastErr
    else
      match ev with
      | .putOk id =>
        if id ∈ st.puts then
          let st2 : PutState :=
            { puts := st.puts.erase id, handlers := st.handlers ++ [id],
              lastErr := st.lastErr, okPuts := st.okPuts ++ [id],
              okHandlers := st.okHandlers }
          -- All puts have succeeded, no errors - we're done
          if st2.puts = [] ∧ st2.lastErr = none then .ok st2 else putLoop st2 rest
        else .invalid
      | .putErr id e =>
        if id ∈ st.puts then
          putLoop { st with puts := st.puts.erase id, lastErr := some e } rest
        else .invalid
      | .hOk id =>
        if id ∈ st.handlers then
          -- A handler was successful: spawn off the rest, return Ok(())
          .ok { st with handlers := st.handlers.erase id,
                        okHandlers := st.okHandlers ++ [id] }
        else .invalid
      | .hErr id e =>
        if id ∈ st.handlers then
          putLoop { st with handlers := st.handlers.erase id, lastErr := some e } rest
        else .invalid

/-- `put` on a multiplexer configured with backends `cfg`, under the event
schedule `trace`: the pools start with all per-backend puts pending and no
handlers. -/
def mplexPut (cfg : List Nat) (trace : List PEvent) : PutOutcome :=
  putLoop { puts := cfg, handlers := [], lastErr := none,
            okPuts := [], okHandlers := [] } trace

/-- When both pools are empty the loop exits immediately with
`last_err.unwrap()`, whatever events remain unread. -/
theorem putLoop_terminal (st : PutState) (trace : List PEvent)
    (hp : st.puts = [] ∧ st.handlers = []) :
    putLoop st trace = putFinish st.lastErr := by
  cases trace with
  | nil => rw [putLoop, if_pos hp]
  | cons ev rest => cases ev <;> rw [putLoop, if_pos hp]

/-- If `last_err = None` implies the puts pool is non-empty, the loop can
never reach the terminal `last_err.unwrap()` on `None`. -/
theorem putLoop_no_panic (trace : List PEvent) :
    ∀ (st : PutState), (st.lastErr = none → st.puts ≠ []) →
      putLoop st trace ≠ .panic := by
  induction trace with
  | nil =>
    intro st hinv
    rw [putLoop]
    by_cases hp : st.puts = [] ∧ st.handlers = []
    · rw [if_pos hp]
      cases hl : st.lastErr with
      | some e => simp [putFinish]
      | none => exact absurd hp.1 (hinv hl)
    · rw [if_neg hp]
      simp
  | cons ev rest ih =>
    intro st hinv
    by_cases hp : st.puts = [] ∧ st.handlers = []
    · rw [putLoop_terminal st _ hp]
      cases hl : st.lastErr with
      | some e => simp [putFinish]
      | none => exact absurd hp.1 (hinv hl)
    · match ev with
      | .putOk id =>
        rw [putLoop, if_neg hp]
        simp only
        by_cases hid : id ∈ st.puts
        · rw [if_pos hid]
          by_cases hdone : st.puts.erase id = [] ∧ st.lastErr = none
          · rw [if_pos hdone]
            simp
          · rw [if_neg hdone]
            refine ih _ ?_
            intro hl hpe
            exact hdone ⟨hpe, hl⟩
        · rw [if_neg hid]
          simp
      | .putErr id e =>
        rw [putLoop, if_neg hp]
        by_cases hid : id ∈ st.puts
        · rw [if_pos hid]
          refine ih _ ?_
          intro hl
          simp at hl
        · rw [if_neg hid]
          simp
      | .hOk id =>
        rw [putLoop, if_neg hp]
        by_cases hid : id ∈ st.handlers
        · rw [if_pos hid]
          simp
        · rw [if_neg hid]
          simp
      | .hErr id e =>
        rw [putLoop, if_neg hp]
        by_cases hid : id ∈ st.handlers
        · rw [if_pos hid]
          refine ih _ ?_
          intro hl
          simp at hl
        · rw [if_neg hid]
          simp

/-- Claim C10: with at least one configured backend the terminal
`last_err.unwrap()` is safe — no schedule makes `put` panic; with an empty
backend list every schedule reaches the unwrap with `last_err = None` and
panics. -/
theorem put_unwrap_safety (cfg : List Nat) (trace : List PEvent) :
    (cfg ≠ [] → mplexPut cfg trace ≠ .panic)
    ∧ mplexPut [] trace = .panic := by
  constructor
  · intro hne
    exact putLoop_no_panic trace _ (fun _ => hne)
  · rw [mplexPut, putLoop_terminal _ _ ⟨rfl, rfl⟩]
    simp [putFinish]

/-- Claim C10 witness. -/
theorem put_unwrap_safety_witness :
    mplexPut [0] [.putErr 0 "boom"] ≠ .panic ∧ mplexPut [] [] = .panic :=
  ⟨(put_unwrap_safety [0] [.putErr 0 "boom"]).1 (by simp),
   (put_unwrap_safety [] []).2⟩

/-- Invariant-driven description of the state at a successful return of the
reducer loop: some backend put has succeeded, and either a handler has
completed successfully or all puts succeeded with no error observed. -/
theorem putLoop_ok_state (trace : List PEvent) :
    ∀ (st : PutState), (∀ id ∈ st.handlers, id ∈ st.okPuts) →
      ∀ st2, putLoop st trace = .ok st2 →
        st2.okPuts ≠ [] ∧
          (st2.okHandlers ≠ [] ∨ (st2.puts = [] ∧ st2.lastErr = none)) := by
  induction trace with
  | nil =>
    intro st hinv st2 h
    rw [putLoop] at h
    by_cases hp : st.puts = [] ∧ st.handlers = []
    · rw [if_pos hp] at h
      cases hl : st.lastErr with
      | some e => rw [hl] at h; exact absurd h (by simp [putFinish])
      | none => rw [hl] at h; exact absurd h (by simp [putFinish])
    · rw [if_neg hp] at h
      exact absurd h (by simp)
  | cons ev rest ih =>
    intro st hinv st2 h
    by_cases hp : st.puts = [] ∧ st.handlers = []
    · rw [putLoop_terminal st _ hp] at h
      cases hl : st.lastErr with
      | some e => rw [hl] at h; exact absurd h (by simp [putFinish])
      | none => rw [hl] at h; exact absurd h (by simp [putFinish])
    · match ev with
      | .putOk id =>
        rw [putLoop, if_neg hp] at h
        by_cases hid : id ∈ st.puts
        · rw [if_pos hid] at h
          by_cases hdone : st.puts.erase id = [] ∧ st.lastErr = none
          · rw [if_pos hdone] at h
            have hst : st2 =
                { puts := st.puts.erase id, handlers := st.handlers ++ [id],
                  lastErr := st.lastErr, okPuts := st.okPuts ++ [id],
                  okHandlers := st.okHandlers } := (PutOutcome.ok.inj h).symm
            rw [hst]
            exact ⟨by simp, Or.inr ⟨hdone.1, hdone.2⟩⟩
          · rw [if_neg hdone] at h
            refine ih _ ?_ st2 h
            intro x hx
            rcases List.mem_append.1 hx with hx | hx
            · exact List.mem_append.2 (Or.inl (hinv x hx))
            · exact List.mem_append.2 (Or.inr hx)
        · rw [if_neg hid] at h
          exact absurd h (by simp)
      | .putErr id e =>
        rw [putLoop, if_neg hp] at h
        by_cases hid : id ∈ st.puts
        · rw [if_pos hid] at h
          refine ih _ ?_ st2 h
          intro x hx
          exact hinv x hx
        · rw [if_neg hid] at h
          exact absurd h (by simp)
      | .hOk id =>
        rw [putLoop, if_neg hp] at h
        by_cases hid : id ∈ st.handlers
        · rw [if_pos hid] at h
          have hst : st2 =
              { st with handlers := st.handlers.erase id,
                        okHandlers := st.okHandlers ++ [id] } :=
            (PutOutcome.ok.inj h).symm
          rw [hst]
          refine ⟨?_, Or.inl (by simp)⟩
          intro hnil
          have := hinv id hid
          rw [hnil] at this
          simp at this
        · rw [if_neg hid] at h
          exact absurd h (by simp)
      | .hErr id e =>
        rw [putLoop, if_neg hp] at h
        by_cases hid : id ∈ st.handlers
        · rw [if_pos hid] at h
          refine ih _ ?_ st2 h
          intro x hx
          exact hinv x (List.mem_of_mem_erase hx)
        · rw [if_neg hid] at h
          exact absurd h (by simp)

/-- Claim C1 (amended): whenever `put` returns `Ok(())`, at least one
backend put has completed successfully, and either at least one put-handler
invocation has completed with `Ok(())`, or every backend put succeeded with
no error observed and the handlers were detached without being awaited. -/
theorem put_success_requires_put (cfg : List Nat) (trace : List PEvent)
    (st : PutState) (h : mplexPut cfg trace = .ok st) :
    st.okPuts ≠ [] ∧ (st.okHandlers ≠ [] ∨ (st.puts = [] ∧ st.lastErr = none)) :=
  putLoop_ok_state trace _ (by simp) st h

/-- Claim C1 witness. -/
theorem put_success_requires_put_witness :
    mplexPut [0] [.putOk 0, .hOk 0] =
      .ok { puts := [], handlers := [0], lastErr := none,
            okPuts := [0], okHandlers := [] }
    ∧ ([0] : List Nat) ≠ [] := by
  refine ⟨rfl, ?_⟩
  have h := put_success_requires_put [0] [.putOk 0, .hOk 0]
    { puts := [], handlers := [0], lastErr := none,
      okPuts := [0], okHandlers := [] } rfl
  exact h.1

/-- Claim C1 counterexample: with one backend whose put is acknowledged
before any handler runs, `put` returns `Ok(())` although no handler
invocation has returned `Ok(())` — the pending handler is only detached. -/
theorem put_success_without_handler_counterexample :
    mplexPut [0] [.putOk 0] =
      .ok { puts := [], handlers := [0], lastErr := none,
            okPuts := [0], okHandlers := [] }
    ∧ ({ puts := [], handlers := [0], lastErr := none,
         okPuts := [0], okHandlers := [] } : PutState).okHandlers = [] :=
  ⟨rfl, rfl⟩

/-- The error `put` fails with always comes from a single backend put or
handler completion event of the schedule. -/
theorem putLoop_err_from_trace (trace : List PEvent) :
    ∀ (st : PutState) (e : String), putLoop st trace = .err e →
      st.lastErr = some e ∨
        ∃ i, PEvent.putErr i e ∈ trace ∨ PEvent.hErr i e ∈ trace := by
  induction trace with
  | nil =>
    intro st e h
    rw [putLoop] at h
    by_cases hp : st.puts = [] ∧ st.handlers = []
    · rw [if_pos hp] at h
      cases hl : st.lastErr with
      | some e2 =>
        rw [hl] at h
        simp only [putFinish] at h
        exact Or.inl (congrArg some (PutOutcome.err.inj h))
      | none => rw [hl] at h; exact absurd h (by simp [putFinish])
    · rw [if_neg hp] at h
      exact absurd h (by simp)
  | cons ev rest ih =>
    intro st e h
    by_cases hp : st.puts = [] ∧ st.handlers = []
    · rw [putLoop_terminal st _ hp] at h
      cases hl : st.lastErr with
      | some e2 =>
        rw [hl] at h
        simp only [putFinish] at h
        exact Or.inl (congrArg some (PutOutcome.err.inj h))
      | none => rw [hl] at h; exact absurd h (by simp [putFinish])
    · match ev with
      | .putOk id =>
        rw [putLoop, if_neg hp] at h
        by_cases hid : id ∈ st.puts
        · rw [if_pos hid] at h
          by_cases hdone : st.puts.erase id = [] ∧ st.lastErr = none
          · rw [if_pos hdone] at h
            exact absurd h (by simp)
          · rw [if_neg hdone] at h
            rcases ih _ e h with hl | ⟨i, hi⟩
            · exact Or.inl hl
            · exact Or.inr ⟨i, by rcases hi with hi | hi <;> simp [hi]⟩
        · rw [if_neg hid] at h
          exact absurd h (by simp)
      | .putErr id e2 =>
        rw [putLoop, if_neg hp] at h
        by_cases hid : id ∈ st.puts
        · rw [if_pos hid] at h
          rcases ih _ e h with hl | ⟨i, hi⟩
          · simp only at hl
            refine Or.inr ⟨id, Or.inl ?_⟩
            rw [Option.some_inj.1 hl]
            exact List.mem_cons_self _ _
          · exact Or.inr ⟨i, by rcases hi with hi | hi <;> simp [hi]⟩
        · rw [if_neg hid] at h
          exact absurd h (by simp)
      | .hOk id =>
        rw [putLoop, if_neg hp] at h
        by_cases hid : id ∈ st.handlers
        · rw [if_pos hid] at h
          exact absurd h (by simp)
        · rw [if_neg hid] at h
          exact absurd h (by simp)
      | .hErr id e2 =>
        rw [putLoop, if_neg hp] at h
        by_cases hid : id ∈ st.handlers
        · rw [if_pos hid] at h
          rcases ih _ e h with hl | ⟨i, hi⟩
          · simp only at hl
            refine Or.inr ⟨id, Or.inr ?_⟩
            rw [Option.some_inj.1 hl]
            exact List.mem_cons_self _ _
          · exact Or.inr ⟨i, by rcases hi with hi | hi <;> simp [hi]⟩
        · rw [if_neg hid] at h
          exact absurd h (by simp)

theorem errsOf_map_fst {α : Type} (res : List (Nat × Except String α))
    (h : ∀ p ∈ res, ∃ e, p.2 = .error e) :
    (errsOf res).map Prod.fst = res.map Prod.fst := by
  induction res with
  | nil => simp [errsOf]
  | cons p rest ih =>
    obtain ⟨e, he⟩ := h p (by simp)
    rcases p with ⟨i, r⟩
    simp only at he
    subst he
    rw [errsOf_cons]
    simp only [List.singleton_append, List.map_cons]
    rw [ih fun q hq => h q (by simp [hq])]

/-- Claim C2 (amended): when every backend errors, `get` and `is_present`
fail with `AllFailed` whose map has exactly one entry per configured
backend; `put` instead fails with the last single error observed from a
backend put or handler event — it never aggregates a per-backend map. -/
theorem all_backends_error_classification (cfg : List Nat)
    (gresults : List (Nat × GetRes)) (presults : List (Nat × PresRes))
    (ptrace : List PEvent) :
    ((gresults.map Prod.fst).Perm cfg → gresults ≠ [] →
      (∀ p ∈ gresults, ∃ e, p.2 = .error e) →
        blobstore_get gresults = .error (.allFailed (errsOf gresults))
        ∧ ((errsOf gresults).map Prod.fst).Perm cfg)
    ∧ ((presults.map Prod.fst).Perm cfg → presults ≠ [] →
      (∀ p ∈ presults, ∃ e, p.2 = .error e) →
        is_present presults = .error (.allFailed (errsOf presults))
        ∧ ((errsOf presults).map Prod.fst).Perm cfg)
    ∧ (∀ e, mplexPut cfg ptrace = .err e →
        ∃ i, PEvent.putErr i e ∈ ptrace ∨ PEvent.hErr i e ∈ ptrace) := by
  refine ⟨?_, ?_, ?_⟩
  · intro hperm hne hall
    have hnw : ∀ p ∈ gresults, ∀ d, p.2 ≠ .ok (some d) := by
      intro p hp d hd
      obtain ⟨e, he⟩ := hall p hp
      rw [he] at hd
      exact Except.noConfusion hd
    refine ⟨(get_drain_classification gresults hnw).1 ⟨hne, hall⟩, ?_⟩
    rw [errsOf_map_fst gresults hall]
    exact hperm
  · intro hperm hne hall
    have hnt : ∀ p ∈ presults, p.2 ≠ .ok true := by
      intro p hp hd
      obtain ⟨e, he⟩ := hall p hp
      rw [he] at hd
      exact Except.noConfusion hd
    refine ⟨(is_present_classification presults).2.2.1 ⟨hne, hall⟩, ?_⟩
    rw [errsOf_map_fst presults hall]
    exact hperm
  · intro e h
    rcases putLoop_err_from_trace ptrace _ e h with hl | hout
    · exact absurd hl (by simp)
    · exact hout

/-- Claim C2 witness. -/
theorem all_backends_error_classification_witness :
    blobstore_get [(1, .error "ea"), (0, .error "eb")] =
      .error (.allFailed [(1, "ea"), (0, "eb")])
    ∧ is_present [(1, .error "ea"), (0, .error "eb")] =
      .error (.allFailed [(1, "ea"), (0, "eb")])
    ∧ (∃ i, PEvent.putErr i "eb" ∈ [PEvent.putErr 0 "ea", PEvent.putErr 1 "eb"]
        ∨ PEvent.hErr i "eb" ∈ [PEvent.putErr 0 "ea", PEvent.putErr 1 "eb"]) := by
  have h := all_backends_error_classification [0, 1]
    [(1, .error "ea"), (0, .error "eb")] [(1, .error "ea"), (0, .error "eb")]
    [PEvent.putErr 0 "ea", PEvent.putErr 1 "eb"]
  refine ⟨?_, ?_, ?_⟩
  · have h1 := (h.1 (by decide) (by simp) (by intro p hp; fin_cases hp <;> simp)).1
    simpa [errsOf, errOf] using h1
  · have h2 := (h.2.1 (by decide) (by simp) (by intro p hp; fin_cases hp <;> simp)).1
    simpa [errsOf, errOf] using h2
  · exact h.2.2 "eb" rfl

/-- Claim C2 counterexample: with two backends both failing, `put` returns
the bare last error — a single error value, not an `AllFailed` map listing
every configured backend. -/
theorem put_all_failed_counterexample :
    mplexPut [0, 1] [.putErr 0 "ea", .putErr 1 "eb"] = .err "eb" := rfl

/-
`MultiplexedBlobstoreBase::scrub_get`: awaits all backends, partitions into
successes and errors, then classifies.  The iteration order of the
`successes` hash map is modelled by the order of the given result vector.
-/

/-- The `(id, value)` pairs of the successful backend responses, in
iteration order (`partition_map`'s `Either::Left` side). -/
def successesOf (results : List (Nat × GetRes)) :
    List (Nat × Option BlobstoreGetData) :=
  results.filterMap fun p =>
    match p.2 with
    | .ok v => some (p.1, v)
    | .error _ => none

/-- One iteration of scrub's classification loop over `successes`: track the
first `Some` as `best_value`, the ids that answered and the ids that were
missing, and whether every later `Some` matches `best_value` byte-for-byte. -/
def scrubStep (acc : Option BlobstoreGetData × Finset Nat × Finset Nat × Bool)
    (p : Nat × Option BlobstoreGetData) :
    Option BlobstoreGetData × Finset Nat × Finset Nat × Bool :=
  match acc, p with
  | (best, missing, answered, allSame), (id, none) =>
      (best, insert id missing, answered, allSame)
  | (none, missing, answered, allSame), (id, some v) =>
      (some v, missing, insert id answered, allSame)
  | (some b, missing, answered, allSame), (id, some v) =>
      (some b, missing, insert id answered,
        allSame && decide (v.as_bytes = b.as_bytes))

/-- `MultiplexedBlobstoreBase::scrub_get` over the awaited result vector. -/
def scrub_get (results : List (Nat × GetRes)) :
    Except ErrorKind (Option BlobstoreGetData) :=
  if successesOf results = [] then .error (.allFailed (errsOf results))
  else
    match (successesOf results).foldl scrubStep (none, ∅, ∅, true) with
    | (best, missing, answered, allSame) =>
      if allSame = false then .error (.valueMismatch answered missing)
      else if best.isSome = false then
        if errsOf results = [] then .ok none
        else .error (.someFailedOthersNone (errsOf results))
      else if missing = ∅ then .ok best
      else .error (.someMissingItem missing best)

/-- The `Some` values among the successes, in iteration order. -/
def valsOf (s : List (Nat × Option BlobstoreGetData)) : List BlobstoreGetData :=
  s.filterMap Prod.snd

/-- The ids of the successes that returned `None`. -/
def idsNone (s : List (Nat × Option BlobstoreGetData)) : Finset Nat :=
  ((s.filter fun p => p.2.isNone).map Prod.fst).toFinset

/-- The ids of the successes that returned `Some`. -/
def idsSome (s : List (Nat × Option BlobstoreGetData)) : Finset Nat :=
  ((s.filter fun p => p.2.isSome).map Prod.fst).toFinset

/-- Do all values agree byte-for-byte with the first one? -/
def allSameVals : List BlobstoreGetData → Bool
  | [] => true
  | b :: rest => rest.all fun v => decide (v.as_bytes = b.as_bytes)

theorem scrubFold_some (s : List (Nat × Option BlobstoreGetData)) :
    ∀ (b : BlobstoreGetData) (m a : Finset Nat) (t : Bool),
      s.foldl scrubStep (some b, m, a, t) =
        (some b, m ∪ idsNone s, a ∪ idsSome s,
          t && (valsOf s).all fun v => decide (v.as_bytes = b.as_bytes)) := by
  induction s with
  | nil =>
    intro b m a t
    simp [idsNone, idsSome, valsOf]
  | cons p rest ih =>
    intro b m a t
    rcases p with ⟨id, v⟩
    cases v with
    | none =>
      rw [List.foldl_cons]
      simp only [scrubStep]
      rw [ih]
      simp [idsNone, idsSome, valsOf, Finset.insert_union]
    | some v =>
      rw [List.foldl_cons]
      simp only [scrubStep]
      rw [ih]
      simp [idsNone, idsSome, valsOf, Finset.insert_union, Finset.union_insert,
        Bool.and_assoc]

theorem scrubFold_none (s : List (Nat × Option BlobstoreGetData)) :
    ∀ (m a : Finset Nat),
      s.foldl scrubStep (none, m, a, true) =
        ((valsOf s).head?, m ∪ idsNone s, a ∪ idsSome s,
          allSameVals (valsOf s)) := by
  induction s with
  | nil =>
    intro m a
    simp [idsNone, idsSome, valsOf, allSameVals]
  | cons p rest ih =>
    intro m a
    rcases p with ⟨id, v⟩
    cases v with
    | none =>
      rw [List.foldl_cons]
      simp only [scrubStep]
      rw [ih]
      simp [idsNone, idsSome, valsOf, Finset.insert_union]
    | some v =>
      rw [List.foldl_cons]
      simp only [scrubStep]
      rw [scrubFold_some]
      simp [idsNone, idsSome, valsOf, allSameVals, Finset.insert_union,
        Finset.union_insert]

theorem allSameVals_eq_true_iff (vals : List BlobstoreGetData) :
    allSameVals vals = true ↔
      ∀ v ∈ vals, ∀ w ∈ vals, v.as_bytes = w.as_bytes := by
  cases vals with
  | nil => simp [allSameVals]
  | cons b rest =>
    rw [allSameVals, List.all_eq_true]
    constructor
    · intro h v hv w hw
      have hb : ∀ x ∈ b :: rest, x.as_bytes = b.as_bytes := by
        intro x hx
        rcases List.mem_cons.1 hx with hx | hx
        · rw [hx]
        · exact of_decide_eq_true (h x hx)
      rw [hb v hv, hb w hw]
    · intro h v hv
      exact decide_eq_true
        (h v (List.mem_cons.2 (Or.inr hv)) b (List.mem_cons.2 (Or.inl rfl)))

theorem successesOf_eq_nil_iff (results : List (Nat × GetRes)) :
    successesOf results = [] ↔ ∀ p ∈ results, ∃ e, p.2 = .error e := by
  rw [successesOf, List.filterMap_eq_nil_iff]
  constructor
  · intro h p hp
    have := h p hp
    rcases hr : p.2 with e | v
    · exact ⟨e, rfl⟩
    · rw [hr] at this
      simp at this
  · intro h p hp
    obtain ⟨e, he⟩ := h p hp
    rw [he]

/-- Abbreviations for the scrub statement: the values, the answered ids and
the missing ids of the successful responses. -/
def scrubVals (results : List (Nat × GetRes)) : List BlobstoreGetData :=
  valsOf (successesOf results)

def scrubAnswered (results : List (Nat × GetRes)) : Finset Nat :=
  idsSome (successesOf results)

def scrubMissing (results : List (Nat × GetRes)) : Finset Nat :=
  idsNone (successesOf results)

theorem scrub_get_fold (results : List (Nat × GetRes))
    (hne : successesOf results ≠ []) :
    scrub_get results =
      if allSameVals (scrubVals results) = false then
        .error (.valueMismatch (scrubAnswered results) (scrubMissing results))
      else if ((scrubVals results).head?).isSome = false then
        if errsOf results = [] then .ok none
        else .error (.someFailedOthersNone (errsOf results))
      else if scrubMissing results = ∅ then .ok ((scrubVals results).head?)
      else .error (.someMissingItem (scrubMissing results)
        ((scrubVals results).head?)) := by
  rw [scrub_get, if_neg hne, scrubFold_none]
  simp only [Finset.empty_union]
  rfl

/-- Claim C5: scrub's classification of the awaited result vector: no
success gives `AllFailed`; byte-divergent values give `ValueMismatch` over
the answered and missing id sets; all-`None` successes give `Ok(None)`
without errors and `SomeFailedOthersNone` with; agreeing values with a
missing backend give `SomeMissingItem` carrying the first value; agreeing
values with none missing give `Ok(best_value)`. -/
theorem scrub_get_classification (results : List (Nat × GetRes)) :
    ((∀ p ∈ results, ∃ e, p.2 = .error e) →
        scrub_get results = .error (.allFailed (errsOf results)))
    ∧ ((∃ v ∈ scrubVals results, ∃ w ∈ scrubVals results,
          v.as_bytes ≠ w.as_bytes) →
        scrub_get results =
          .error (.valueMismatch (scrubAnswered results) (scrubMissing results)))
    ∧ ((∃ p ∈ results, ∃ a, p.2 = .ok a) → scrubVals results = [] →
        ((errsOf results = [] → scrub_get results = .ok none)
         ∧ (errsOf results ≠ [] →
              scrub_get results = .error (.someFailedOthersNone (errsOf results)))))
    ∧ ((∀ v ∈ scrubVals results, ∀ w ∈ scrubVals results,
          v.as_bytes = w.as_bytes) →
        ∀ v0, (scrubVals results).head? = some v0 →
        ((scrubMissing results = ∅ → scrub_get results = .ok (some v0))
         ∧ (scrubMissing results ≠ ∅ →
              scrub_get results =
                .error (.someMissingItem (scrubMissing results) (some v0))))) := by
  refine ⟨?_, ?_, ?_, ?_⟩
  · intro hall
    rw [scrub_get, if_pos ((successesOf_eq_nil_iff results).2 hall)]
  · intro ⟨v, hv, w, hw, hvw⟩
    have hne : successesOf results ≠ [] := by
      intro hnil
      rw [scrubVals, hnil] at hv
      simp [valsOf] at hv
    have hfalse : allSameVals (scrubVals results) = false := by
      cases hb : allSameVals (scrubVals results) with
      | false => rfl
      | true =>
        exact absurd ((allSameVals_eq_true_iff _).1 hb v hv w hw) hvw
    rw [scrub_get_fold results hne, if_pos hfalse]
  · intro ⟨p, hp, a, ha⟩ hvals
    have hne : successesOf results ≠ [] := by
      intro hnil
      have := (successesOf_eq_nil_iff results).1 hnil p hp
      obtain ⟨e, he⟩ := this
      rw [he] at ha
      exact Except.noConfusion ha
    have hsame : ¬ allSameVals (scrubVals results) = false := by
      rw [hvals]
      simp [allSameVals]
    have hhead : ((scrubVals results).head?).isSome = false := by
      rw [hvals]
      rfl
    rw [scrub_get_fold results hne, if_neg hsame, if_pos hhead]
    constructor
    · intro herr
      rw [if_pos herr]
    · intro herr
      rw [if_neg herr]
  · intro hsame v0 hv0
    have hvne : scrubVals results ≠ [] := by
      intro hnil
      rw [hnil] at hv0
      exact Option.noConfusion hv0
    have hne : successesOf results ≠ [] := by
      intro hnil
      apply hvne
      rw [scrubVals, hnil]
      rfl
    have hsame2 : ¬ allSameVals (scrubVals results) = false := by
      rw [(allSameVals_eq_true_iff _).2 hsame]
      simp
    have hhead : ¬ ((scrubVals results).head?).isSome = false := by
      rw [hv0]
      simp
    rw [scrub_get_fold results hne, if_neg hsame2, if_neg hhead, hv0]
    constructor
    · intro hmiss
      rw [if_pos hmiss]
    · intro hmiss
      rw [if_neg hmiss]

/-- Claim C5 witness. -/
theorem scrub_get_classification_witness :
    scrub_get [(0, .error "ea"), (1, .error "eb")] =
      .error (.allFailed [(0, "ea"), (1, "eb")])
    ∧ scrub_get [(0, .ok (some ⟨[1], none⟩)), (1, .ok (some ⟨[2], none⟩)),
        (2, .ok none)] = .error (.valueMismatch {0, 1} {2})
    ∧ scrub_get [(0, .ok none), (1, .ok none)] = .ok none
    ∧ scrub_get [(0, .ok (some ⟨[1], none⟩)), (1, .ok (some ⟨[1], none⟩)),
        (2, .ok none)] = .error (.someMissingItem {2} (some ⟨[1], none⟩))
    ∧ scrub_get [(0, .ok (some ⟨[1], none⟩)), (1, .ok (some ⟨[1], none⟩))] =
        .ok (some ⟨[1], none⟩) := by
  refine ⟨?_, ?_, ?_, ?_, ?_⟩
  · have h := (scrub_get_classification [(0, .error "ea"), (1, .error "eb")]).1
      (by intro p hp; fin_cases hp <;> simp)
    simpa [errsOf, errOf] using h
  · have h := (scrub_get_classification [(0, .ok (some ⟨[1], none⟩)),
        (1, .ok (some ⟨[2], none⟩)), (2, .ok none)]).2.1
      ⟨⟨[1], none⟩, by decide, ⟨[2], none⟩, by decide,
        by simp [BlobstoreGetData.as_bytes]⟩
    have ha : scrubAnswered [(0, .ok (some ⟨[1], none⟩)),
        (1, .ok (some ⟨[2], none⟩)), (2, .ok none)] = {0, 1} := by decide
    have hm : scrubMissing [(0, .ok (some ⟨[1], none⟩)),
        (1, .ok (some ⟨[2], none⟩)), (2, .ok none)] = {2} := by decide
    rw [ha, hm] at h
    exact h
  · have h := ((scrub_get_classification [(0, .ok none), (1, .ok none)]).2.2.1
      ⟨(0, .ok none), by simp, none, rfl⟩ (by decide)).1 (by decide)
    exact h
  · have h := ((scrub_get_classification [(0, .ok (some ⟨[1], none⟩)),
        (1, .ok (some ⟨[1], none⟩)), (2, .ok none)]).2.2.2
      (by decide) ⟨[1], none⟩ (by decide)).2 (by decide)
    have hm : scrubMissing [(0, .ok (some ⟨[1], none⟩)),
        (1, .ok (some ⟨[1], none⟩)), (2, .ok none)] = {2} := by decide
    rw [hm] at h
    exact h
  · exact ((scrub_get_classification [(0, .ok (some ⟨[1], none⟩)),
        (1, .ok (some ⟨[1], none⟩))]).2.2.2
      (by decide) ⟨[1], none⟩ (by decide)).1 (by decide)

/-
Per-backend deadlines (`REQUEST_TIMEOUT`, `remap_timeout_result`,
`multiplexed_get_one`, `inner_put`).  The `tokio::time::timeout` wrapper is
modelled by an `Option`: `none` is `Elapsed`, `some r` a completion within
the deadline.
-/

/-- `REQUEST_TIMEOUT`: the per-call hard deadline, in seconds. -/
def REQUEST_TIMEOUT_SECS : Nat := 600

/-- `remap_timeout_result`: deadline expiry becomes the
"blobstore operation timeout" error; an in-time result passes through. -/
def remap_timeout_result {α : Type} (timeout_or_result : Option (Except String α)) :
    Except String α :=
  match timeout_or_result with
  | some r => r
  | none => .error "blobstore operation timeout"

/-- `multiplexed_get_one`, given the deadline-limited outcome of the inner
`blobstore.get` call: tags the remapped result with the backend id. -/
def multiplexed_get_one (blobstore_id : Nat) (timeout_or_res : Option GetRes) :
    Nat × GetRes :=
  (blobstore_id, remap_timeout_result timeout_or_res)

/-- `inner_put`, given the deadline-limited outcome of the inner
`blobstore.put` call: `result.map(|()| blobstore_id)`. -/
def inner_put (blobstore_id : Nat)
    (timeout_or_res : Option (Except String Unit)) : Except String Nat :=
  (remap_timeout_result timeout_or_res).map fun _ => blobstore_id

/-- The error map carried by a drained `get`, if any. -/
def errMapOf (r : Except ErrorKind (Option BlobstoreGetData)) :
    List (Nat × String) :=
  match r with
  | .error (.allFailed m) => m
  | .error (.someFailedOthersNone m) => m
  | _ => []

/-- Claim C7: each per-backend `get`/`put` runs under the 600-second
deadline; expiry delivers the "blobstore operation timeout" error for that
backend, which the drained `get` records in its per-backend error map like
any other error, and an in-time result passes through unchanged. -/
theorem timeout_classification :
    REQUEST_TIMEOUT_SECS = 600
    ∧ (∀ i : Nat, multiplexed_get_one i none =
        (i, .error "blobstore operation timeout"))
    ∧ (∀ (i : Nat) (r : GetRes), multiplexed_get_one i (some r) = (i, r))
    ∧ (∀ i : Nat, inner_put i none = .error "blobstore operation timeout")
    ∧ (∀ (i : Nat) (r : Except String Unit),
        inner_put i (some r) = r.map fun _ => i)
    ∧ (∀ (results : List (Nat × GetRes)) (i : Nat),
        (i, Except.error "blobstore operation timeout") ∈ results →
        firstSomeRes results = none →
        (i, "blobstore operation timeout") ∈ errMapOf (blobstore_get results)) := by
  refine ⟨rfl, fun i => rfl, fun i r => rfl, fun i => rfl, fun i r => rfl, ?_⟩
  intro results i hmem hnw
  have hge := blobstore_get_of_noWinner results hnw
  have hErrMem : (i, "blobstore operation timeout") ∈ errsOf results :=
    mem_errsOf results i _ hmem
  have hnenil : errsOf results ≠ [] := by
    intro hnil
    rw [hnil] at hErrMem
    simp at hErrMem
  rw [hge, if_neg hnenil]
  by_cases h2 : (errsOf results).length = results.length
  · rw [if_pos h2]
    simpa [errMapOf] using hErrMem
  · rw [if_neg h2]
    simpa [errMapOf] using hErrMem

/-- Claim C7 witness. -/
theorem timeout_classification_witness :
    multiplexed_get_one 3 none = (3, .error "blobstore operation timeout")
    ∧ multiplexed_get_one 3 (some (.ok none)) = (3, .ok none)
    ∧ inner_put 4 none = .error "blobstore operation timeout"
    ∧ inner_put 4 (some (.ok ())) = .ok 4
    ∧ (3, "blobstore operation timeout") ∈ errMapOf (blobstore_get
        [(3, .error "blobstore operation timeout"), (5, .ok none)]) := by
  have h := timeout_classification
  refine ⟨h.2.1 3, h.2.2.1 3 (.ok none), h.2.2.2.1 4, h.2.2.2.2.1 4 (.ok ()), ?_⟩
  exact h.2.2.2.2.2 [(3, .error "blobstore operation timeout"), (5, .ok none)] 3
    (by simp) (by decide)

/-
The blobstore sync queue
(src/eden/mononoke/blobstore_sync_queue/src/lib.rs).  The backing SQL table
is modelled as a list of rows; `operation_key` (a UUID) as a `Nat`;
timestamps as `Int`.  SQL `LIKE` matching belongs to the SQL engine, so the
optional `key_like` pattern is abstracted into a `String → Bool` predicate.
-/

/-- `BlobstoreSyncQueueEntry`.  `id` is assigned by the queue on insert. -/
structure BlobstoreSyncQueueEntry where
  blobstore_key : String
  blobstore_id : Nat
  multiplex_id : Int
  timestamp : Int
  operation_key : Nat
  id : Option Nat
deriving DecidableEq

/-- The optional `key_like` filter: `none` means no pattern
(`GetRangeOfEntries`), `some f` the `LIKE` predicate
(`GetRangeOfEntriesLike`). -/
def matchK (key_like : Option (String → Bool)) (k : String) : Bool :=
  match key_like with
  | some f => f k
  | none => true

/-- The WHERE clause of the inner subquery: key pattern, `add_timestamp <=
older_than`, and `multiplex_id = {multiplex_id}`. -/
def eligibleRow (key_like : Option (String → Bool)) (multiplex_id : Int)
    (older_than : Int) (row : BlobstoreSyncQueueEntry) : Bool :=
  matchK key_like row.blobstore_key && decide (row.timestamp ≤ older_than)
    && decide (row.multiplex_id = multiplex_id)

/-- `SELECT DISTINCT operation_key ... LIMIT {limit}` of the inner
subquery. -/
def selectedKeys (key_like : Option (String → Bool)) (multiplex_id : Int)
    (older_than : Int) (limit : Nat) (table : List BlobstoreSyncQueueEntry) :
    List Nat :=
  (((table.filter (eligibleRow key_like multiplex_id older_than)).map
      (fun r => r.operation_key)).dedup).take limit

/-- `SqlBlobstoreSyncQueue::iter`: the join keeps every row of the table
whose `operation_key` is among the selected keys and whose `multiplex_id`
matches. -/
def iter (key_like : Option (String → Bool)) (multiplex_id : Int)
    (older_than : Int) (limit : Nat) (table : List BlobstoreSyncQueueEntry) :
    List BlobstoreSyncQueueEntry :=
  table.filter fun row =>
    decide (row.operation_key ∈
      selectedKeys key_like multiplex_id older_than limit table)
      && decide (row.multiplex_id = multiplex_id)

/-- Keys of the rows returned by `iter` are among the selected keys. -/
theorem iter_keys_subset (key_like : Option (String → Bool))
    (multiplex_id older_than : Int) (limit : Nat)
    (table : List BlobstoreSyncQueueEntry) :
    ∀ q ∈ iter key_like multiplex_id older_than limit table,
      q.operation_key ∈ selectedKeys key_like multiplex_id older_than limit table := by
  intro q hq
  have := List.mem_filter.1 hq
  have hcond := this.2
  rw [Bool.and_eq_true, decide_eq_true_eq, decide_eq_true_eq] at hcond
  exact hcond.1

/-- Claim C8 (amended): `iter(key_like, multiplex_id, older_than, limit)`
returns a closed set — rows of at most `limit` distinct operation keys,
each key selected among entries of the multiplex with timestamp at or
before `older_than` (matching `key_like` when given), together with every
row of the same multiplex sharing one of those keys. -/
theorem iter_closed_set (key_like : Option (String → Bool))
    (multiplex_id older_than : Int) (limit : Nat)
    (table : List BlobstoreSyncQueueEntry) :
    (((iter key_like multiplex_id older_than limit table).map
        (fun r => r.operation_key)).dedup.length ≤ limit)
    ∧ (∀ q ∈ iter key_like multiplex_id older_than limit table,
        q ∈ table ∧ q.multiplex_id = multiplex_id
        ∧ ∃ w ∈ table, w.operation_key = q.operation_key
            ∧ w.multiplex_id = multiplex_id ∧ w.timestamp ≤ older_than
            ∧ matchK key_like w.blobstore_key = true)
    ∧ (∀ w ∈ table, w.multiplex_id = multiplex_id →
        (∃ q ∈ iter key_like multiplex_id older_than limit table,
          q.operation_key = w.operation_key) →
        w ∈ iter key_like multiplex_id older_than limit table) := by
  refine ⟨?_, ?_, ?_⟩
  · set R := iter key_like multiplex_id older_than limit table with hR
    set S := selectedKeys key_like multiplex_id older_than limit table with hS
    have hsub : ((R.map fun r => r.operation_key).dedup).toFinset ⊆ S.toFinset := by
      intro x hx
      rw [List.mem_toFinset, List.mem_dedup, List.mem_map] at hx
      obtain ⟨q, hq, hqx⟩ := hx
      rw [List.mem_toFinset, ← hqx]
      exact iter_keys_subset key_like multiplex_id older_than limit table q hq
    have h1 : ((R.map fun r => r.operation_key).dedup).toFinset.card =
        ((R.map fun r => r.operation_key).dedup).length :=
      List.toFinset_card_of_nodup (List.nodup_dedup _)
    have h2 : S.toFinset.card ≤ S.length := List.toFinset_card_le S
    have h3 : S.length ≤ limit := by
      rw [hS, selectedKeys]
      exact List.length_take_le _ _
    have h4 := Finset.card_le_card hsub
    omega
  · intro q hq
    have hmem := List.mem_filter.1 hq
    have hcond := hmem.2
    rw [Bool.and_eq_true, decide_eq_true_eq, decide_eq_true_eq] at hcond
    refine ⟨hmem.1, hcond.2, ?_⟩
    have hsel : q.operation_key ∈
        selectedKeys key_like multiplex_id older_than limit table := hcond.1
    rw [selectedKeys] at hsel
    have hded := List.mem_of_mem_take hsel
    rw [List.mem_dedup, List.mem_map] at hded
    obtain ⟨w, hw, hwk⟩ := hded
    have hwf := List.mem_filter.1 hw
    have helig := hwf.2
    rw [eligibleRow, Bool.and_eq_true, Bool.and_eq_true, decide_eq_true_eq,
      decide_eq_true_eq] at helig
    exact ⟨w, hwf.1, hwk, helig.2, helig.1.2, helig.1.1⟩
  · intro w hw hmpx ⟨q, hq, hqk⟩
    have hqsel := iter_keys_subset key_like multiplex_id older_than limit table q hq
    rw [hqk] at hqsel
    refine List.mem_filter.2 ⟨hw, ?_⟩
    rw [Bool.and_eq_true, decide_eq_true_eq, decide_eq_true_eq]
    exact ⟨hqsel, hmpx⟩

/-- Claim C8 witness (for the amended statement): two operation keys with
two rows each, `limit = 1`: both rows of one key are returned, rows of the
other key are not. -/
theorem iter_closed_set_witness :
    ((iter none 0 10 1
        [⟨"a", 0, 0, 3, 7, some 1⟩, ⟨"a", 1, 0, 4, 7, some 2⟩,
         ⟨"b", 0, 0, 5, 8, some 3⟩, ⟨"b", 1, 0, 6, 8, some 4⟩]).map
        (fun r => r.operation_key)).dedup.length ≤ 1
    ∧ (⟨"a", 1, 0, 4, 7, some 2⟩ : BlobstoreSyncQueueEntry) ∈
        iter none 0 10 1
          [⟨"a", 0, 0, 3, 7, some 1⟩, ⟨"a", 1, 0, 4, 7, some 2⟩,
           ⟨"b", 0, 0, 5, 8, some 3⟩, ⟨"b", 1, 0, 6, 8, some 4⟩] := by
  constructor
  · exact (iter_closed_set none 0 10 1
      [⟨"a", 0, 0, 3, 7, some 1⟩, ⟨"a", 1, 0, 4, 7, some 2⟩,
       ⟨"b", 0, 0, 5, 8, some 3⟩, ⟨"b", 1, 0, 6, 8, some 4⟩]).1
  · exact (iter_closed_set none 0 10 1
      [⟨"a", 0, 0, 3, 7, some 1⟩, ⟨"a", 1, 0, 4, 7, some 2⟩,
       ⟨"b", 0, 0, 5, 8, some 3⟩, ⟨"b", 1, 0, 6, 8, some 4⟩]).2.2
      ⟨"a", 1, 0, 4, 7, some 2⟩ (by decide) (by decide)
      ⟨⟨"a", 0, 0, 3, 7, some 1⟩, by decide, by decide⟩

/-- Claim C8 counterexample: the cutoff is inclusive.  A queue whose only
row sits exactly at `older_than` is returned by `iter`, although no entry
is strictly older than the cutoff. -/
theorem iter_strict_cutoff_counterexample :
    iter none 0 5 1 [⟨"k", 0, 0, 5, 7, some 1⟩] = [⟨"k", 0, 0, 5, 7, some 1⟩]
    ∧ ¬ ((⟨"k", 0, 0, 5, 7, some 1⟩ : BlobstoreSyncQueueEntry).timestamp < 5) := by
  exact ⟨by decide, by decide⟩

/-- The id-collection step of `SqlBlobstoreSyncQueue::del`:
`entries.map(|e| e.id.ok_or(..)).collect::<Result<Vec<u64>>>()` — fails on
the first entry without an assigned id. -/
def collectIds : List BlobstoreSyncQueueEntry → Except String (List Nat)
  | [] => .ok []
  | e :: rest =>
    match e.id with
    | none => .error "BlobstoreSyncQueueEntry must contain `id` to be able to delete it"
    | some i => (collectIds rest).map fun ids => i :: ids

/-- `ids.chunks(10_000)`, generalised over the chunk size. -/
def chunksOf {α : Type} (n : Nat) (l : List α) : List (List α) :=
  if h : l.length = 0 ∨ n = 0 then []
  else
    l.take n :: chunksOf n (l.drop n)
termination_by l.length
decreasing_by
  simp only [List.length_drop]
  omega

/-- One `DELETE FROM blobstore_sync_queue WHERE id in {ids}` statement. -/
def deleteIds (table : List BlobstoreSyncQueueEntry) (ids : List Nat) :
    List BlobstoreSyncQueueEntry :=
  table.filter fun row =>
    match row.id with
    | some i => decide (i ∉ ids)
    | none => true

/-- `SqlBlobstoreSyncQueue::del` acting on the modelled table: collect the
ids (failing if any entry lacks one), then issue one delete statement per
chunk of at most 10,000 ids. -/
def queueDel (table : List BlobstoreSyncQueueEntry)
    (entries : List BlobstoreSyncQueueEntry) :
    Except String Unit × List BlobstoreSyncQueueEntry :=
  match collectIds entries with
  | .error e => (.error e, table)
  | .ok ids => (.ok (), (chunksOf 10000 ids).foldl deleteIds table)

theorem collectIds_error (entries : List BlobstoreSyncQueueEntry)
    (h : ∃ e ∈ entries, e.id = none) :
    collectIds entries =
      .error "BlobstoreSyncQueueEntry must contain `id` to be able to delete it" := by
  induction entries with
  | nil => simp at h
  | cons e rest ih =>
    rw [collectIds]
    obtain ⟨f, hf, hfid⟩ := h
    rcases List.mem_cons.1 hf with hfe | hfe
    · rw [← hfe, hfid]
    · cases he : e.id with
      | none => rfl
      | some i =>
        rw [ih ⟨f, hfe, hfid⟩]
        rfl

theorem collectIds_ok (entries : List BlobstoreSyncQueueEntry)
    (h : ∀ e ∈ entries, e.id.isSome) :
    collectIds entries = .ok (entries.filterMap fun e => e.id) := by
  induction entries with
  | nil => simp [collectIds]
  | cons e rest ih =>
    rw [collectIds]
    cases he : e.id with
    | none =>
      have := h e (by simp)
      rw [he] at this
      simp at this
    | some i =>
      rw [ih fun f hf => h f (by simp [hf])]
      simp [he, Except.map]

theorem chunksOf_join {α : Type} (n : Nat) (hn : 0 < n) (l : List α) :
    (chunksOf n l).flatten = l := by
  rw [chunksOf]
  by_cases h : l.length = 0 ∨ n = 0
  · rw [dif_pos h]
    rcases h with h | h
    · rw [List.length_eq_zero.1 h]
      rfl
    · omega
  · rw [dif_neg h]
    rw [List.flatten_cons, chunksOf_join n hn (l.drop n), List.take_append_drop]
termination_by l.length
decreasing_by
  simp only [List.length_drop]
  omega

theorem chunksOf_length_le {α : Type} (n : Nat) (l : List α) :
    ∀ c ∈ chunksOf n l, c.length ≤ n := by
  rw [chunksOf]
  by_cases h : l.length = 0 ∨ n = 0
  · rw [dif_pos h]
    simp
  · rw [dif_neg h]
    intro c hc
    rcases List.mem_cons.1 hc with hc | hc
    · rw [hc]
      exact List.length_take_le n l
    · exact chunksOf_length_le n (l.drop n) c hc
termination_by l.length
decreasing_by
  simp only [List.length_drop]
  omega

/-- Claim C9: if any entry passed to `del` lacks an assigned id, the call
fails immediately with an error and no deletion is performed — the table is
unchanged; when every entry carries an id, the deletion is issued by id,
in chunks of at most 10,000 ids per statement, covering exactly the ids of
the entries. -/
theorem del_precondition_and_chunking (table : List BlobstoreSyncQueueEntry)
    (entries : List BlobstoreSyncQueueEntry) :
    ((∃ e ∈ entries, e.id = none) →
        queueDel table entries =
          (.error "BlobstoreSyncQueueEntry must contain `id` to be able to delete it",
           table))
    ∧ ((∀ e ∈ entries, e.id.isSome) →
        ∃ ids, collectIds entries = .ok ids
          ∧ ids = entries.filterMap (fun e => e.id)
          ∧ queueDel table entries =
              (.ok (), (chunksOf 10000 ids).foldl deleteIds table)
          ∧ (chunksOf 10000 ids).flatten = ids
          ∧ ∀ c ∈ chunksOf 10000 ids, c.length ≤ 10000) := by
  constructor
  · intro h
    rw [queueDel, collectIds_error entries h]
  · intro h
    refine ⟨entries.filterMap (fun e => e.id), collectIds_ok entries h, rfl, ?_, ?_, ?_⟩
    · rw [queueDel, collectIds_ok entries h]
    · exact chunksOf_join 10000 (by omega) _
    · exact chunksOf_length_le 10000 _

/-- Claim C9 witness. -/
theorem del_precondition_and_chunking_witness :
    queueDel [⟨"k", 0, 0, 1, 7, some 1⟩]
        [⟨"k", 0, 0, 1, 7, some 1⟩, ⟨"k", 1, 0, 1, 7, none⟩] =
      (.error "BlobstoreSyncQueueEntry must contain `id` to be able to delete it",
       [⟨"k", 0, 0, 1, 7, some 1⟩])
    ∧ queueDel [⟨"k", 0, 0, 1, 7, some 1⟩, ⟨"x", 0, 0, 1, 8, some 2⟩]
        [⟨"k", 0, 0, 1, 7, some 1⟩] =
      (.ok (), [⟨"x", 0, 0, 1, 8, some 2⟩]) := by
  constructor
  · exact (del_precondition_and_chunking [⟨"k", 0, 0, 1, 7, some 1⟩]
      [⟨"k", 0, 0, 1, 7, some 1⟩, ⟨"k", 1, 0, 1, 7, none⟩]).1
      ⟨⟨"k", 1, 0, 1, 7, none⟩, by decide, rfl⟩
  · have h := ((del_precondition_and_chunking
      [⟨"k", 0, 0, 1, 7, some 1⟩, ⟨"x", 0, 0, 1, 8, some 2⟩]
      [⟨"k", 0, 0, 1, 7, some 1⟩]).2 (by decide))
    obtain ⟨ids, hids, hval, hrun, _, _⟩ := h
    rw [hrun, hval]
    have h1 : chunksOf 10000 (List.filterMap (fun e => e.id)
        [(⟨"k", 0, 0, 1, 7, some 1⟩ : BlobstoreSyncQueueEntry)]) = [[1]] := by
      rw [chunksOf, dif_neg (by decide), chunksOf, dif_pos (by decide)]
      rfl
    rw [h1]
    rfl

end EdenMultiplex
